import Mathlib

set_option autoImplicit false

namespace GzMath

/-!
Verification of the `ignition::math` frame-graph subsystem.

The path layer is embedded from `src/src/PathPrivate.cc`.  The frame graph,
frame tree and relative-pose handle are modelled from the specification
(their implementation files are not part of the source tree; only
`FrameGraph_TEST.cc` is).  SE(3) poses are treated as an opaque group, as
the specification prescribes.
-/
/-- Characters forbidden inside a path segment
(`PathPrivate.cc` line 67, the argument of `find_first_of`). -/
def invalidChars : List Char :=
  ['/', '!', '@', Char.ofNat 35, '$', '%', '^', '&', '*', Char.ofNat 9, ' ',
   '(', ')', Char.ofNat 34, ':', ';', Char.ofNat 39, '.', '~', Char.ofNat 96,
   '_', '+', '=', ',', '<', '>']


/-- `PathPrivate::CheckName` (`PathPrivate.cc` lines 58-71): `.` and `..` are
authorized, the empty string is rejected, and any occurrence of a forbidden
character rejects the segment. -/
def CheckName (name : String) : Bool :=
  if name = "." ∨ name = ".." then true
  else if name = "" then false
  else if name.toList.any (fun c => invalidChars.contains c) then false
  else true


/-- Split a character list on `/`, keeping empty pieces.  The source uses
repeated `std::getline` (`PathPrivate.cc` lines 37-54), which omits a
trailing empty piece; since empty pieces are filtered out afterwards the
difference is unobservable. -/
def splitOnSlash : List Char → List (List Char)
  | [] => [[]]
  | c :: rest =>
    if c = '/' then [] :: splitOnSlash rest
    else
      match splitOnSlash rest with
      | [] => [[c]]
      | s :: ss => (c :: s) :: ss


/-- The `/`-separated raw segments of a string. -/
def rawSegs (s : String) : List String :=
  (splitOnSlash s.toList).map (fun cs => String.mk cs)


/-- The state of a `PathPrivate` object: the original text and the retained
path elements. -/
structure ParsedPath where
  path : String
  pathElems : List String
  deriving DecidableEq


/-- `PathPrivate::PathPrivate` (`PathPrivate.cc` lines 27-55): fail on the
empty string; split on `/`; discard empty pieces and `.`; validate every
remaining segment with `CheckName` (failing construction on the first bad
one); retain the validated segments in order. -/
def parsePath (s : String) : Option ParsedPath :=
  if s = "" then none
  else
    let kept := (rawSegs s).filter (fun seg => seg != "" && seg != ".")
    if kept.all (fun seg => CheckName seg) then some ⟨s, kept⟩ else none


/-- `PathPrivate::IsAbsolute` (`PathPrivate.cc` lines 86-103).  The source
indexes `pathElems[0]` without any bound check; when the element list is
empty that read is out of bounds, which the model records as `none`. -/
def IsAbsolute (p : ParsedPath) : Option Bool :=
  if p.path.toList.head? ≠ some '/' then some false
  else
    match p.pathElems with
    | [] => none
    | e :: _ => some (e == "world" && p.pathElems.all (fun s => s != ".."))


/-- A segment valid in the words of the specification: non-empty and
containing none of the forbidden characters. -/
def specValidSegment (seg : String) : Prop :=
  seg ≠ "" ∧ ∀ c ∈ seg.toList, c ∉ invalidChars


instance (seg : String) : Decidable (specValidSegment seg) := by
  unfold specValidSegment
  infer_instance


/-! ## Frame graph model

The frame tree, the graph operations and the relative-pose handle are not
part of the source tree (only `FrameGraph_TEST.cc` is), so they are
modelled from the specification, with poses drawn from an opaque group as
the specification treats SE(3). -/
/-- Modelled from the spec: the error taxonomy of the frame graph surface
(spec section 7); the missing `FrameGraph.cc` raises these as
`FrameException`s. -/
inductive FrameError where
  | InvalidPath
  | UnknownFrame
  | DuplicateFrame
  | RootWrite
  deriving DecidableEq


mutual
/-- Modelled from the spec: a frame node of the missing `Frame.cc` — a local
pose and an ordered child map iterated in insertion order. -/
inductive Frame (G : Type) : Type where
  | mk (pose : G) (children : Children G)
  deriving DecidableEq
/-- Modelled from the spec: the ordered child map of a frame; each entry
carries the child's name. -/
inductive Children (G : Type) : Type where
  | nil
  | cons (name : String) (child : Frame G) (rest : Children G)
  deriving DecidableEq
end

def Frame.pose {G : Type} : Frame G → G
  | .mk p _ => p


def Frame.children {G : Type} : Frame G → Children G
  | .mk _ cs => cs


/-- Modelled from the spec: `children()`, the ordered insertion-order view
of the child map. -/
def Children.toList {G : Type} : Children G → List (String × Frame G)
  | .nil => []
  | .cons n c rest => (n, c) :: rest.toList


/-- Look a child up by name (first entry with that name). -/
def childNamed {G : Type} : Children G → String → Option (Frame G)
  | .nil, _ => none
  | .cons m c rest, n => if m = n then some c else childNamed rest n


/-- Attach a new child at the end of the map (insertion order). -/
def appendChild {G : Type} : Children G → String → Frame G → Children G
  | .nil, n, c => .cons n c .nil
  | .cons m d rest, n, c => .cons m d (appendChild rest n c)


/-- Remove the entries with the given name from the map. -/
def removeChild {G : Type} : Children G → String → Children G
  | .nil, _ => .nil
  | .cons m d rest, n =>
    if m = n then removeChild rest n else .cons m d (removeChild rest n)


/-- Replace the first child with the given name by its image under the
given function, leaving everything else unchanged. -/
def mapChild {G : Type} : Children G → String → (Frame G → Frame G) → Children G
  | .nil, _, _ => .nil
  | .cons m d rest, n, h =>
    if m = n then .cons m (h d) rest else .cons m d (mapChild rest n h)


/-- Modelled from the spec: resolve a location (the list of names from the
root) by descending through the child maps. -/
def findFrame {G : Type} : Frame G → List String → Option (Frame G)
  | f, [] => some f
  | f, n :: rest =>
    match childNamed f.children n with
    | none => none
    | some c => findFrame c rest


/-- Rebuild the tree with the frame at the given location replaced by its
image under the given function (identity when the location is missing). -/
def updateAt {G : Type} : Frame G → List String → (Frame G → Frame G) → Frame G
  | f, [], u => u f
  | f, n :: rest, u => .mk f.pose (mapChild f.children n (fun c => updateAt c rest u))


/-- Modelled from the spec: the path-resolution algorithm of the missing
`FrameGraph.cc` (spec section 4.D): `.` is a no-op, `..` moves to the
parent and fails at the root, any other segment moves to the child of that
name and fails when absent. -/
def resolveSegs {G : Type} (g : Frame G) : List String → List String → Option (List String)
  | cur, [] => some cur
  | cur, seg :: rest =>
    if seg = "." then resolveSegs g cur rest
    else if seg = ".." then
      match cur with
      | [] => none
      | _ :: _ => resolveSegs g cur.dropLast rest
    else
      match findFrame g (cur ++ [seg]) with
      | none => none
      | some _ => resolveSegs g (cur ++ [seg]) rest


/-- Modelled from the spec: the absoluteness check the graph applies to
paths used for mutations and lookups — the text begins with `/` and no
`..` appears among the elements.  (The root is addressed as `/`, the
convention of the tests; see the spec's root-naming note.) -/
def graphAbsolute (p : ParsedPath) : Bool :=
  (p.path.toList.head? == some '/') && p.pathElems.all (fun seg => seg != "..")


/-- Modelled from the spec: a legal frame name — a valid segment that is
neither `.` nor `..` (spec section 3, Frame attributes). -/
def validFrameName (n : String) : Bool :=
  n != "." && n != ".." && CheckName n


/-- Modelled from the spec: `AddFrame(parentPath, name, pose)` — the parent
path must parse and be absolute (`InvalidPath`) and resolve to an existing
frame (`UnknownFrame`); the name must be a legal frame name (`InvalidPath`)
and not already present among the parent's children (`DuplicateFrame`); on
success the new frame is appended to the parent's child map with the given
local pose. -/
def addFrame {G : Type} (g : Frame G) (parentPath name : String) (q : G) :
    Except FrameError (Frame G) :=
  match parsePath parentPath with
  | none => .error .InvalidPath
  | some p =>
    if graphAbsolute p then
      match findFrame g p.pathElems with
      | none => .error .UnknownFrame
      | some parent =>
        if validFrameName name then
          if (childNamed parent.children name).isSome then .error .DuplicateFrame
          else .ok (updateAt g p.pathElems
            (fun f => .mk f.pose (appendChild f.children name (.mk q .nil))))
        else .error .InvalidPath
    else .error .InvalidPath


/-- Remove the subtree at the given (non-empty) location. -/
def deleteAt {G : Type} : Frame G → List String → Frame G
  | f, [] => f
  | f, [n] => .mk f.pose (removeChild f.children n)
  | f, n :: rest => .mk f.pose (mapChild f.children n (fun c => deleteAt c rest))


/-- Modelled from the spec: `DeleteFrame(path)` — the path must parse and
be absolute (`InvalidPath`), must not address the root (`RootWrite`), and
must resolve to an existing frame (`UnknownFrame`); the entire subtree is
removed. -/
def deleteFrame {G : Type} (g : Frame G) (path : String) : Except FrameError (Frame G) :=
  match parsePath path with
  | none => .error .InvalidPath
  | some p =>
    if graphAbsolute p then
      match p.pathElems with
      | [] => .error .RootWrite
      | _ :: _ =>
        match findFrame g p.pathElems with
        | none => .error .UnknownFrame
        | some _ => .ok (deleteAt g p.pathElems)
    else .error .InvalidPath


/-- Modelled from the spec: `LocalPose` through a weak handle (a location):
fails with `UnknownFrame` when the frame no longer exists. -/
def localPoseAt {G : Type} (g : Frame G) (loc : List String) : Except FrameError G :=
  match findFrame g loc with
  | none => .error .UnknownFrame
  | some f => .ok f.pose


/-- Modelled from the spec: `SetLocalPose` through a weak handle: fails
with `RootWrite` on the root and with `UnknownFrame` on a deleted frame;
otherwise replaces the frame's local pose. -/
def setPoseAt {G : Type} (g : Frame G) (loc : List String) (q : G) :
    Except FrameError (Frame G) :=
  match loc with
  | [] => .error .RootWrite
  | _ :: _ =>
    match findFrame g loc with
    | none => .error .UnknownFrame
    | some _ => .ok (updateAt g loc (fun f => .mk q f.children))


/-- Modelled from the spec: the absolute pose of the frame at a location —
the local poses along the root-to-frame walk composed in parent-to-child
order (the root contributes the identity). -/
def chainProd {G : Type} [Group G] : Frame G → List String → Option G
  | _, [] => some 1
  | f, n :: rest =>
    (childNamed f.children n).bind
      (fun c => (chainProd c rest).map (fun q => c.pose * q))


/-- Longest common prefix of two locations: the location of the lowest
common ancestor of the two frames. -/
def lcp : List String → List String → List String
  | a :: as, b :: bs => if a = b then a :: lcp as bs else []
  | _, _ => []


/-- Modelled from the spec: the ordered weak references one side of a
`RelativePose` stores — the locations from the endpoint (deepest first) up
to but excluding the lowest common ancestor.  `anc` is the ancestor
location, `rem` the remaining names down to the endpoint. -/
def chainLocs (anc : List String) : List String → List (List String)
  | [] => []
  | n :: rest => chainLocs (anc ++ [n]) rest ++ [anc ++ [n]]


/-- Modelled from the spec: a `RelativePose` handle — two ordered lists of
weak frame references (modelled as locations), the target-side chain and
the reference-side chain, each running from the endpoint up to but
excluding the lowest common ancestor. -/
structure RelativePose where
  up : List (List String)
  down : List (List String)
  deriving DecidableEq


/-- Evaluate one stored chain against the current graph: read the local
pose of every referenced frame (failing when a reference is dead) and
compose them in parent-to-child order. -/
def evalChain {G : Type} [Group G] (g : Frame G) : List (List String) → Option G
  | [] => some 1
  | loc :: rest =>
    (findFrame g loc).bind
      (fun f => (evalChain g rest).map (fun q => q * f.pose))


/-- Modelled from the spec: evaluating a `RelativePose` — compose the
target chain, compose the reference chain, return
`inverse(reference) ⊕ target`; fail with `UnknownFrame` when any stored
reference no longer resolves. -/
def evalRel {G : Type} [Group G] (g : Frame G) (h : RelativePose) : Except FrameError G :=
  match evalChain g h.up, evalChain g h.down with
  | some pt, some pr => .ok (pr⁻¹ * pt)
  | _, _ => .error .UnknownFrame


/-- The handle connecting two resolved locations: both chains stop at the
lowest common ancestor. -/
def mkRel (tl rl : List String) : RelativePose :=
  ⟨chainLocs (lcp tl rl) (tl.drop (lcp tl rl).length),
   chainLocs (lcp tl rl) (rl.drop (lcp tl rl).length)⟩


/-- Modelled from the spec: `CreateRelativePose(target, reference)` — both
paths must parse (`InvalidPath`); the target resolves from the root; the
reference resolves from the root when its text begins with `/` and from
the target frame otherwise (which is what makes `Pose("/b", "..")` the
local pose of `b`); resolution failure is `UnknownFrame`; the handle holds
the two chains up to the lowest common ancestor. -/
def createRelativePose {G : Type} (g : Frame G) (t r : String) :
    Except FrameError RelativePose :=
  match parsePath t, parsePath r with
  | some pt, some pr =>
    match resolveSegs g [] pt.pathElems with
    | none => .error .UnknownFrame
    | some tl =>
      match resolveSegs g (if pr.path.toList.head? == some '/' then [] else tl)
          pr.pathElems with
      | none => .error .UnknownFrame
      | some rl => .ok (mkRel tl rl)
  | _, _ => .error .InvalidPath


/-- Modelled from the spec: `Pose(target, reference)` — build the relative
pose handle and evaluate it immediately, under the same lock. -/
def poseQ {G : Type} [Group G] (g : Frame G) (t r : String) : Except FrameError G :=
  match createRelativePose g t r with
  | .error e => .error e
  | .ok h => evalRel g h


/-- The pose of the frame at `tl` expressed in the frame at `rl`, both
already resolved. -/
def poseLoc {G : Type} [Group G] (g : Frame G) (tl rl : List String) :
    Except FrameError G :=
  evalRel g (mkRel tl rl)


/-- A two-sibling graph over the multiplicative integers, used by
witnesses. -/
def wGraphAB : Frame (Multiplicative ℤ) :=
  .mk 1 (.cons "a" (.mk (Multiplicative.ofAdd 3) .nil)
    (.cons "b" (.mk (Multiplicative.ofAdd 5) .nil) .nil))


/-- Resolve the target path of a query, starting at the root. -/
def resolveTarget {G : Type} (g : Frame G) (t : String) : Option (List String) :=
  (parsePath t).bind (fun p => resolveSegs g [] p.pathElems)


/-- A root with a single child `a` (local pose 3), and the same graph after
the child's pose is set to 5; used by witnesses. -/
def wGraphA : Frame (Multiplicative ℤ) :=
  .mk 1 (.cons "a" (.mk (Multiplicative.ofAdd 3) .nil) .nil)


def wGraphA5 : Frame (Multiplicative ℤ) :=
  .mk 1 (.cons "a" (.mk (Multiplicative.ofAdd 5) .nil) .nil)


/-! ### AddFrame: error taxonomy and success behavior -/
/-- The success condition of `AddFrame` in the words of the claim: the
parent path parses as an absolute path to an existing frame, the name is a
valid segment, and the name is not already among that parent's children. -/
def addOk {G : Type} (g : Frame G) (pp n : String) : Prop :=
  ∃ p parent, parsePath pp = some p ∧ graphAbsolute p = true ∧
    findFrame g p.pathElems = some parent ∧ validFrameName n = true ∧
    childNamed parent.children n = none


/-- A root with child `a` and grandchild `a/aa`, used by the C7 witness. -/
def wGraphDeep : Frame (Multiplicative ℤ) :=
  .mk 1 (.cons "a"
    (.mk (Multiplicative.ofAdd 3)
      (.cons "aa" (.mk (Multiplicative.ofAdd 5) .nil) .nil)) .nil)


/-! ### RelativePose handles under SetLocalPose mutations -/
/-- Modelled from the spec: the graphs reachable from `g` by a sequence of
successful `SetLocalPose` mutations, with no intervening deletions. -/
inductive SetReach {G : Type} (g : Frame G) : Frame G → Prop where
  | refl : SetReach g g
  | step {g1 g2 : Frame G} {loc : List String} {q : G} :
      SetReach g g1 → setPoseAt g1 loc q = .ok g2 → SetReach g g2


/-! ### Printing: depth-first insertion-order traversal -/
mutual
/-- Modelled from the spec: depth-first traversal of the tree with children
in insertion order; every visited frame contributes its location and local
pose. -/
def dfsF {G : Type} (loc : List String) : Frame G → List (List String × G)
  | .mk p cs => (loc, p) :: dfsC loc cs
/-- Depth-first traversal of a child map, children in insertion order. -/
def dfsC {G : Type} (loc : List String) : Children G → List (List String × G)
  | .nil => []
  | .cons n c rest => dfsF (loc ++ [n]) c ++ dfsC loc rest
end

/-- Modelled from the spec: the absolute-path rendering of a location; the
root is rendered as `/`. -/
def pathString (loc : List String) : String :=
  match loc with
  | [] => "/"
  | _ :: _ => String.join (loc.map (fun n => "/" ++ n))


/-- One line of the debug printing: `<absolute-path> [<pose>]` and a
newline; the rendering of the pose body is a parameter (numeric formatting
of SE(3) values is outside the model). -/
def printLine {G : Type} (render : G → String) (e : List String × G) : String :=
  pathString e.1 ++ " [" ++ render e.2 ++ "]" ++ "\n"


/-- Modelled from the spec: the debug printing — the depth-first
insertion-order traversal, one line per frame, trailing newline after every
line including the last. -/
def printGraph {G : Type} (render : G → String) (g : Frame G) : String :=
  ((dfsF [] g).map (printLine render)).foldr (fun line acc => line ++ acc) ""


mutual
/-- Invariant I2 of the spec: sibling names are unique, recursively. -/
def wellFormedF {G : Type} : Frame G → Bool
  | .mk _ cs => wellFormedC cs
def wellFormedC {G : Type} : Children G → Bool
  | .nil => true
  | .cons n c rest =>
    !(childNamed rest n).isSome && wellFormedF c && wellFormedC rest
end

/-- The child names of a map, in insertion order. -/
def childNames {G : Type} (cs : Children G) : List String :=
  cs.toList.map Prod.fst


/-! ## Theorems -/

theorem checkName_false_iff (seg : String) (h1 : seg ≠ "") :
    CheckName seg = false ↔ seg ≠ "." ∧ seg ≠ ".." ∧ ¬ specValidSegment seg := by
  unfold CheckName specValidSegment
  by_cases hdot : seg = "." ∨ seg = ".."
  · simp only [if_pos hdot]
    constructor
    · intro h
      exact absurd h (by simp)
    · rintro ⟨hd, hdd, _⟩
      rcases hdot with h | h
      · exact absurd h hd
      · exact absurd h hdd
  · push_neg at hdot
    simp only [if_neg (by tauto : ¬ (seg = "." ∨ seg = ".."))]
    rw [if_neg h1]
    constructor
    · intro h
      refine ⟨hdot.1, hdot.2, ?_⟩
      rintro ⟨-, hall⟩
      by_cases hany : seg.toList.any (fun c => invalidChars.contains c)
      · rcases List.any_eq_true.mp hany with ⟨c, hc, hcontains⟩
        exact hall c hc (List.mem_of_elem_eq_true hcontains)
      · rw [if_neg hany] at h
        exact Bool.true_eq_false.mp h
    · rintro ⟨-, -, hnv⟩
      by_cases hany : seg.toList.any (fun c => invalidChars.contains c)
      · rw [if_pos hany]
      · exfalso
        apply hnv
        refine ⟨h1, fun c hc hmem => ?_⟩
        have hcontains : invalidChars.contains c = true := List.elem_eq_true_of_mem hmem
        exact hany (List.any_eq_true.mpr ⟨c, hc, hcontains⟩)


/-- C1: `Path(text)` construction fails exactly when the text is empty or
some retained (non-empty, non-`.`) segment other than `..` is invalid, and
on success the element list is the `/`-separated segments of the text with
empty segments and `.` discarded and `..` retained. -/
theorem c1_path_parse (s : String) :
    (parsePath s = none ↔
      s = "" ∨ ∃ seg ∈ rawSegs s,
        seg ≠ "" ∧ seg ≠ "." ∧ seg ≠ ".." ∧ ¬ specValidSegment seg) ∧
    (∀ p, parsePath s = some p →
      p.path = s ∧
      p.pathElems = (rawSegs s).filter (fun seg => seg != "" && seg != ".")) := by
  constructor
  · unfold parsePath
    by_cases hs : s = ""
    · simp [hs]
    · rw [if_neg hs]
      simp only [hs, false_or]
      constructor
      · intro h
        by_cases hall :
            ((rawSegs s).filter (fun seg => seg != "" && seg != ".")).all
              (fun seg => CheckName seg)
        · rw [if_pos hall] at h
          exact absurd h (by simp)
        · have := hall
          rw [List.all_eq_true] at this
          push_neg at this
          rcases this with ⟨seg, hmem, hfalse⟩
          rcases List.mem_filter.mp hmem with ⟨hraw, hcond⟩
          rw [Bool.and_eq_true, bne_iff_ne, bne_iff_ne] at hcond
          have hcf : CheckName seg = false := by
            revert hfalse
            cases CheckName seg <;> simp
          rcases (checkName_false_iff seg hcond.1).mp hcf with ⟨hd, hdd, hnv⟩
          exact ⟨seg, hraw, hcond.1, hd, hdd, hnv⟩
      · rintro ⟨seg, hraw, hne, hd, hdd, hnv⟩
        have hmem : seg ∈ (rawSegs s).filter (fun seg => seg != "" && seg != ".") :=
          List.mem_filter.mpr ⟨hraw, by
            rw [Bool.and_eq_true, bne_iff_ne, bne_iff_ne]; exact ⟨hne, hd⟩⟩
        have hcf : CheckName seg = false :=
          (checkName_false_iff seg hne).mpr ⟨hd, hdd, hnv⟩
        rw [if_neg ?hfail]
        case hfail =>
          intro hall
          rw [List.all_eq_true] at hall
          have := hall seg hmem
          rw [hcf] at this
          exact Bool.false_ne_true this
  · intro p hp
    unfold parsePath at hp
    by_cases hs : s = ""
    · rw [if_pos hs] at hp
      exact absurd hp (by simp)
    · rw [if_neg hs] at hp
      by_cases hall :
          ((rawSegs s).filter (fun seg => seg != "" && seg != ".")).all
            (fun seg => CheckName seg)
      · rw [if_pos hall] at hp
        cases hp
        exact ⟨rfl, rfl⟩
      · rw [if_neg hall] at hp
        exact absurd hp (by simp)


/-- Witness for C1 at concrete inputs: a path with empty, `.` and `..`
segments parses to the filtered element list, and a path with a space in a
segment fails to parse. -/
theorem c1_path_parse_witness :
    parsePath "/a/./b//.." = some ⟨"/a/./b//..", ["a", "b", ".."]⟩ ∧
    parsePath "/a b" = none := by
  constructor
  · have h := (c1_path_parse "/a/./b//..").2
    have hp : parsePath "/a/./b//.." =
        some ⟨"/a/./b//..",
          ((rawSegs "/a/./b//..").filter (fun seg => seg != "" && seg != "."))⟩ := by
      decide
    rw [hp]
    have := h _ hp
    congr 1
  · have h := (c1_path_parse "/a b").1
    apply h.mpr
    right
    refine ⟨"a b", by decide, by decide, by decide, by decide, by decide⟩


/-- C2 (amended): for every successfully parsed path whose retained element
list is non-empty, `isAbsolute()` returns a boolean which is true exactly
when the original text began with `/`, the first retained element is the
root token `world`, and no `..` element appears. -/
theorem c2_isAbsolute (s : String) (p : ParsedPath)
    (h : parsePath s = some p) (hne : p.pathElems ≠ []) :
    ∃ b, IsAbsolute p = some b ∧
      (b = true ↔
        s.toList.head? = some '/' ∧
        p.pathElems.head? = some "world" ∧
        ∀ e ∈ p.pathElems, e ≠ "..") := by
  have hpath : p.path = s := ((c1_path_parse s).2 p h).1
  unfold IsAbsolute
  rw [hpath]
  by_cases hslash : s.toList.head? = some '/'
  · rw [if_neg (by simpa using hslash)]
    rcases helems : p.pathElems with ⟨⟩ | ⟨e, rest⟩
    · exact absurd helems hne
    · refine ⟨_, rfl, ?_⟩
      rw [Bool.and_eq_true, beq_iff_eq, List.all_eq_true]
      constructor
      · rintro ⟨he, hall⟩
        subst he
        refine ⟨hslash, by simp, ?_⟩
        intro x hx
        have := hall x (helems ▸ hx)
        rwa [bne_iff_ne] at this
      · rintro ⟨-, hhead, hall⟩
        constructor
        · simpa using hhead
        · intro x hx
          rw [bne_iff_ne]
          exact hall x (helems ▸ hx)
  · rw [if_pos (by simpa using hslash)]
    refine ⟨false, rfl, ?_⟩
    simp only [Bool.false_eq_true, false_iff]
    rintro ⟨h1, -, -⟩
    exact hslash h1


/-- Witness for C2 at a concrete input: `"/world/a"` parses with non-empty
elements and is reported absolute. -/
theorem c2_isAbsolute_witness :
    ∃ b, IsAbsolute ⟨"/world/a", ["world", "a"]⟩ = some b ∧ b = true := by
  have h : parsePath "/world/a" = some ⟨"/world/a", ["world", "a"]⟩ := by decide
  rcases c2_isAbsolute "/world/a" ⟨"/world/a", ["world", "a"]⟩ h (by simp)
    with ⟨b, hb, hiff⟩
  exact ⟨b, hb, hiff.mpr (by refine ⟨by decide, by decide, ?_⟩; decide)⟩


/-- Counterexample to C2 as stated: `"/"` parses successfully (with an empty
element list), but `isAbsolute()` does not return a boolean at all — the
source reads `pathElems[0]` out of bounds — in particular it does not return
`false` as the claimed equivalence would require. -/
theorem c2_isAbsolute_counterexample :
    parsePath "/" = some ⟨"/", []⟩ ∧
    IsAbsolute ⟨"/", []⟩ = none ∧
    IsAbsolute ⟨"/", []⟩ ≠ some false := by
  refine ⟨by decide, rfl, by simp [IsAbsolute]⟩


/-- C3: evaluation of the code at the failing input.  `"/"` parses
successfully with an empty retained-element list, and on it
`PathPrivate::IsAbsolute` reaches the unguarded `pathElems[0]` read (the
`none` of the model): the access is not guarded against the empty list. -/
theorem c3_isAbsolute_unguarded :
    parsePath "/" = some ⟨"/", []⟩ ∧
    (⟨"/", []⟩ : ParsedPath).pathElems = [] ∧
    IsAbsolute ⟨"/", []⟩ = none := by
  exact ⟨by decide, rfl, rfl⟩


/-! ### Structural lemmas about the tree operations -/
theorem findFrame_append {G : Type} :
    ∀ (a : List String) (g : Frame G) (b : List String),
    findFrame g (a ++ b) = (findFrame g a).bind (fun f => findFrame f b)
  | [], g, b => rfl
  | n :: rest, g, b => by
    simp only [List.cons_append, findFrame]
    cases childNamed g.children n with
    | none => rfl
    | some c => exact findFrame_append rest c b


theorem chainProd_isSome {G : Type} [Group G] :
    ∀ (loc : List String) (f : Frame G),
    (chainProd f loc).isSome = (findFrame f loc).isSome
  | [], f => rfl
  | n :: rest, f => by
    simp only [chainProd, findFrame]
    cases childNamed f.children n with
    | none => rfl
    | some c =>
      have h := chainProd_isSome rest c
      simp only [Option.some_bind]
      cases hc : chainProd c rest with
      | none =>
        rw [hc] at h
        cases hf : findFrame c rest with
        | none => simp
        | some x => rw [hf] at h; exact absurd h (by simp)
      | some q =>
        rw [hc] at h
        cases hf : findFrame c rest with
        | none => rw [hf] at h; exact absurd h (by simp)
        | some x => simp


theorem lcp_comm : ∀ (a b : List String), lcp a b = lcp b a
  | [], [] => rfl
  | [], _ :: _ => rfl
  | _ :: _, [] => rfl
  | x :: as, y :: bs => by
    simp only [lcp]
    by_cases h : x = y
    · subst h
      simp [lcp_comm as bs]
    · rw [if_neg h, if_neg (fun hy => h hy.symm)]


theorem lcp_append_drop :
    ∀ (a b : List String), lcp a b ++ a.drop (lcp a b).length = a
  | [], [] => rfl
  | [], _ :: _ => rfl
  | _ :: _, [] => rfl
  | x :: as, y :: bs => by
    simp only [lcp]
    by_cases h : x = y
    · rw [if_pos h]
      simp only [List.length_cons, List.cons_append, List.drop_succ_cons]
      rw [lcp_append_drop as bs]
    · rw [if_neg h]
      simp


theorem lcp_nil_right : ∀ (a : List String), lcp a [] = []
  | [] => rfl
  | _ :: _ => rfl


/-- Composing a chain with a single deeper location appended at the
endpoint side. -/
theorem evalChain_append {G : Type} [Group G] (g : Frame G) :
    ∀ (xs : List (List String)) (l : List String),
    evalChain g (xs ++ [l]) =
      (findFrame g l).bind (fun f => (evalChain g xs).map (fun q => f.pose * q))
  | [], l => by
    simp only [List.nil_append, evalChain]
    cases findFrame g l with
    | none => rfl
    | some f => simp [mul_one, one_mul]
  | x :: xs, l => by
    have ih := evalChain_append g xs l
    simp only [List.cons_append, evalChain, List.append_eq, ih]
    cases findFrame g x with
    | none =>
      cases findFrame g l with
      | none => rfl
      | some f => cases evalChain g xs <;> rfl
    | some fx =>
      cases findFrame g l with
      | none => rfl
      | some f =>
        cases evalChain g xs with
        | none => rfl
        | some q => simp [mul_assoc]


/-- The composed value of a stored chain is the product of local poses
below the ancestor: evaluating the chain of `rem` under `anc` against the
whole graph is the `chainProd` of `rem` from the ancestor frame. -/
theorem evalChain_chainLocs {G : Type} [Group G] (g : Frame G) :
    ∀ (rem anc : List String) (f : Frame G), findFrame g anc = some f →
    evalChain g (chainLocs anc rem) = chainProd f rem
  | [], anc, f, hf => rfl
  | n :: rest, anc, f, hf => by
    simp only [chainLocs, chainProd]
    rw [evalChain_append]
    have hone : (findFrame f [n] : Option (Frame G)) = childNamed f.children n := by
      simp only [findFrame]
      cases childNamed f.children n <;> rfl
    have hstep : findFrame g (anc ++ [n]) = childNamed f.children n := by
      rw [findFrame_append, hf, Option.some_bind, hone]
    rw [hstep]
    cases hc : childNamed f.children n with
    | none =>
      simp
    | some c =>
      have ih := evalChain_chainLocs g rest (anc ++ [n]) c (by rw [hstep, hc])
      rw [Option.some_bind, ih, Option.some_bind]


/-- A frame that exists has all its ancestors: the frame at a location's
prefix exists too. -/
theorem findFrame_of_append {G : Type} {g : Frame G} {a b : List String}
    {ft : Frame G} (h : findFrame g (a ++ b) = some ft) :
    ∃ fl, findFrame g a = some fl ∧ findFrame fl b = some ft := by
  rw [findFrame_append] at h
  cases hfa : findFrame g a with
  | none => rw [hfa] at h; exact absurd h (by simp)
  | some fl => rw [hfa] at h; exact ⟨fl, rfl, h⟩


/-- C4: for frames at two resolved locations, the pose of the first in the
second is the group inverse of the pose of the second in the first. -/
theorem c4_pose_inverse {G : Type} [Group G] (g : Frame G) (tl rl : List String)
    (ft fr : Frame G) (hT : findFrame g tl = some ft)
    (hR : findFrame g rl = some fr) :
    ∃ p, poseLoc g tl rl = .ok p ∧ poseLoc g rl tl = .ok p⁻¹ := by
  have htl : lcp tl rl ++ tl.drop (lcp tl rl).length = tl := lcp_append_drop tl rl
  have hrl : lcp tl rl ++ rl.drop (lcp tl rl).length = rl := by
    rw [lcp_comm tl rl]
    exact lcp_append_drop rl tl
  obtain ⟨fl, hfl, hflT⟩ := findFrame_of_append (htl ▸ hT)
  obtain ⟨fl2, hfl2, hflR⟩ := findFrame_of_append (hrl ▸ hR)
  rw [hfl] at hfl2
  cases hfl2
  -- both chains evaluate
  have hup := evalChain_chainLocs g (tl.drop (lcp tl rl).length) (lcp tl rl) fl hfl
  have hdown := evalChain_chainLocs g (rl.drop (lcp tl rl).length) (lcp tl rl) fl hfl
  obtain ⟨Pt, hPt⟩ : ∃ Pt, chainProd fl (tl.drop (lcp tl rl).length) = some Pt := by
    have hs := chainProd_isSome (tl.drop (lcp tl rl).length) fl
    rw [hflT] at hs
    cases hcp : chainProd fl (tl.drop (lcp tl rl).length) with
    | none => rw [hcp] at hs; exact absurd hs (by simp)
    | some Pt => exact ⟨Pt, rfl⟩
  obtain ⟨Pr, hPr⟩ : ∃ Pr, chainProd fl (rl.drop (lcp tl rl).length) = some Pr := by
    have hs := chainProd_isSome (rl.drop (lcp tl rl).length) fl
    rw [hflR] at hs
    cases hcp : chainProd fl (rl.drop (lcp tl rl).length) with
    | none => rw [hcp] at hs; exact absurd hs (by simp)
    | some Pr => exact ⟨Pr, rfl⟩
  refine ⟨Pr⁻¹ * Pt, ?_, ?_⟩
  · simp only [poseLoc, evalRel, mkRel]
    rw [hup, hdown, hPt, hPr]
  · simp only [poseLoc, evalRel, mkRel, lcp_comm rl tl]
    rw [hup, hdown, hPt, hPr]
    rw [mul_inv_rev, inv_inv]


/-- Witness for C4 at a concrete graph: the two sibling frames `a` and `b`
of `wGraphAB` have mutually inverse relative poses. -/
theorem c4_pose_inverse_witness :
    ∃ p, poseLoc wGraphAB ["a"] ["b"] = .ok p ∧
      poseLoc wGraphAB ["b"] ["a"] = .ok p⁻¹ :=
  c4_pose_inverse wGraphAB ["a"] ["b"] (.mk (Multiplicative.ofAdd 3) .nil)
    (.mk (Multiplicative.ofAdd 5) .nil) (by decide) (by decide)


/-! ### Pose-only updates preserve the tree structure -/
theorem childNamed_mapChild_self {G : Type} :
    ∀ (cs : Children G) (n : String) (h : Frame G → Frame G),
    childNamed (mapChild cs n h) n = (childNamed cs n).map h
  | .nil, n, h => rfl
  | .cons m d rest, n, h => by
    simp only [mapChild]
    by_cases hm : m = n
    · rw [if_pos hm]
      simp [childNamed, hm]
    · rw [if_neg hm]
      simp only [childNamed, if_neg hm]
      exact childNamed_mapChild_self rest n h


theorem childNamed_mapChild_ne {G : Type} :
    ∀ (cs : Children G) (n m : String) (h : Frame G → Frame G), n ≠ m →
    childNamed (mapChild cs n h) m = childNamed cs m
  | .nil, n, m, h, hne => rfl
  | .cons k d rest, n, m, h, hne => by
    simp only [mapChild]
    by_cases hk : k = n
    · rw [if_pos hk]
      simp only [childNamed]
      rw [if_neg (by rw [hk]; exact hne), if_neg (by rw [hk]; exact hne)]
    · rw [if_neg hk]
      simp only [childNamed]
      by_cases hkm : k = m
      · rw [if_pos hkm, if_pos hkm]
      · rw [if_neg hkm, if_neg hkm]
        exact childNamed_mapChild_ne rest n m h hne


/-- The frame at the updated location is the image of the old frame. -/
theorem findFrame_updateAt {G : Type} :
    ∀ (loc : List String) (g : Frame G) (u : Frame G → Frame G),
    findFrame (updateAt g loc u) loc = (findFrame g loc).map u
  | [], g, u => rfl
  | n :: rest, g, u => by
    cases g with
    | mk p cs =>
      simp only [updateAt, findFrame, Frame.children, childNamed_mapChild_self]
      cases childNamed cs n with
      | none => rfl
      | some c =>
        simp only [Option.map_some]
        exact findFrame_updateAt rest c u


/-- A pose-only update (one that keeps the child map of the frame it
rewrites) does not change which locations resolve. -/
theorem findFrame_isSome_updateAt {G : Type} (u : Frame G → Frame G)
    (hu : ∀ f, (u f).children = f.children) :
    ∀ (loc : List String) (g : Frame G) (loc2 : List String),
    (findFrame (updateAt g loc u) loc2).isSome = (findFrame g loc2).isSome
  | [], g, loc2 => by
    simp only [updateAt]
    cases loc2 with
    | nil => rfl
    | cons m r =>
      simp only [findFrame, hu g]
  | n :: rest, g, loc2 => by
    cases g with
    | mk p cs =>
      cases loc2 with
      | nil => rfl
      | cons m r =>
        simp only [updateAt, findFrame, Frame.children]
        by_cases hm : n = m
        · subst hm
          rw [childNamed_mapChild_self]
          cases childNamed cs n with
          | none => rfl
          | some c =>
            simp only [Option.map_some]
            exact findFrame_isSome_updateAt u hu rest c r
        · rw [childNamed_mapChild_ne cs n m _ hm]


/-- Path resolution only looks at which locations resolve, so it is
untouched by pose-only updates. -/
theorem resolveSegs_updateAt {G : Type} (u : Frame G → Frame G)
    (hu : ∀ f, (u f).children = f.children) (g : Frame G) (loc : List String) :
    ∀ (segs cur : List String),
    resolveSegs (updateAt g loc u) cur segs = resolveSegs g cur segs
  | [], cur => rfl
  | seg :: rest, cur => by
    simp only [resolveSegs]
    by_cases h1 : seg = "."
    · rw [if_pos h1, if_pos h1]
      exact resolveSegs_updateAt u hu g loc rest cur
    · rw [if_neg h1, if_neg h1]
      by_cases h2 : seg = ".."
      · rw [if_pos h2, if_pos h2]
        cases cur with
        | nil => rfl
        | cons a as => exact resolveSegs_updateAt u hu g loc rest (a :: as).dropLast
      · rw [if_neg h2, if_neg h2]
        have hsome := findFrame_isSome_updateAt u hu loc g (cur ++ [seg])
        cases hf : findFrame g (cur ++ [seg]) with
        | none =>
          rw [hf] at hsome
          cases hf2 : findFrame (updateAt g loc u) (cur ++ [seg]) with
          | none => rfl
          | some x => rw [hf2] at hsome; exact absurd hsome (by simp)
        | some c =>
          rw [hf] at hsome
          cases hf2 : findFrame (updateAt g loc u) (cur ++ [seg]) with
          | none => rw [hf2] at hsome; exact absurd hsome (by simp)
          | some x => exact resolveSegs_updateAt u hu g loc rest (cur ++ [seg])


/-- `Pose(t, "/")` is the parent-to-child composition of the local poses
along the root-to-target walk. -/
theorem poseQ_root {G : Type} [Group G] (g : Frame G) (t : String)
    (tl : List String) (P : G) (hres : resolveTarget g t = some tl)
    (hP : chainProd g tl = some P) :
    poseQ g t "/" = .ok P := by
  unfold resolveTarget at hres
  cases hpt : parsePath t with
  | none => rw [hpt] at hres; exact absurd hres (by simp)
  | some pt =>
    rw [hpt, Option.some_bind] at hres
    have hslash : parsePath "/" = some ⟨"/", []⟩ := by decide
    have hhead : ((⟨"/", []⟩ : ParsedPath).path.toList.head? == some '/') = true := by
      decide
    simp only [poseQ, createRelativePose, hpt, hslash, hres, hhead, if_true,
      resolveSegs]
    have hchain := evalChain_chainLocs g tl [] g rfl
    simp only [evalRel, mkRel, lcp_nil_right, List.length_nil, List.drop_zero,
      chainLocs, evalChain, hchain, hP, inv_one, one_mul]


/-- C5: `Pose("/x", "/")` equals the parent-to-child composition of local
poses along the root-to-`x` walk; in particular, for a single child of the
root the query returns the child's local pose, and a `SetLocalPose` on the
child is reflected by the query. -/
theorem c5_pose_from_root {G : Type} [Group G] (g : Frame G) (t : String)
    (tl : List String) (P : G) (hres : resolveTarget g t = some tl)
    (hP : chainProd g tl = some P) :
    poseQ g t "/" = .ok P ∧
    ∀ (n : String) (q : G) (g' : Frame G), tl = [n] →
      setPoseAt g [n] q = .ok g' → poseQ g' t "/" = .ok q := by
  refine ⟨poseQ_root g t tl P hres hP, ?_⟩
  rintro n q g' rfl hset
  have hu : ∀ f : Frame G, ((fun f => Frame.mk q f.children) f).children = f.children :=
    fun f => rfl
  simp only [setPoseAt] at hset
  cases hfind : findFrame g [n] with
  | none =>
    rw [hfind] at hset
    exact absurd hset (by simp)
  | some c0 =>
    rw [hfind] at hset
    have hg2 : updateAt g [n] (fun f => Frame.mk q f.children) = g' := by
      simpa using hset
    subst hg2
    have hchild : childNamed g.children n = some c0 := by
      have hx := hfind
      simp only [findFrame] at hx
      cases hcn : childNamed g.children n with
      | none => rw [hcn] at hx; exact absurd hx (by simp)
      | some c =>
        rw [hcn] at hx
        simpa [findFrame] using hx
    have hres2 : resolveTarget (updateAt g [n] (fun f => Frame.mk q f.children)) t
        = some [n] := by
      unfold resolveTarget at hres ⊢
      cases hpt : parsePath t with
      | none => rw [hpt] at hres; exact absurd hres (by simp)
      | some pt =>
        rw [hpt] at hres
        simp only [Option.some_bind] at hres ⊢
        rw [resolveSegs_updateAt _ hu g [n] pt.pathElems []]
        exact hres
    have hchain2 : chainProd (updateAt g [n] (fun f => Frame.mk q f.children)) [n]
        = some (q * 1) := by
      cases g with
      | mk p cs =>
        simp only [Frame.children] at hchild
        simp only [updateAt, chainProd, Frame.children, childNamed_mapChild_self,
          hchild]
        simp [updateAt, chainProd, Frame.pose]
    have hq := poseQ_root _ t [n] (q * 1) hres2 hchain2
    rwa [mul_one] at hq


/-- Witness for C5 at a concrete graph: `Pose("/a", "/")` is `a`'s local
pose, and after `SetLocalPose` the query reflects the new pose. -/
theorem c5_pose_from_root_witness :
    poseQ wGraphA "/a" "/" = .ok (Multiplicative.ofAdd (3 : ℤ)) ∧
    poseQ wGraphA5 "/a" "/" = .ok (Multiplicative.ofAdd (5 : ℤ)) := by
  have h := c5_pose_from_root wGraphA "/a" ["a"] (Multiplicative.ofAdd (3 : ℤ))
    (by decide) (by decide)
  exact ⟨h.1, h.2 "a" (Multiplicative.ofAdd (5 : ℤ)) wGraphA5 rfl (by rfl)⟩


theorem findFrame_singleton {G : Type} (f : Frame G) (n : String) :
    findFrame f [n] = childNamed f.children n := by
  simp only [findFrame]
  cases childNamed f.children n <;> rfl


theorem childNamed_appendChild {G : Type} :
    ∀ (cs : Children G) (n : String) (c : Frame G),
    childNamed cs n = none → childNamed (appendChild cs n c) n = some c
  | .nil, n, c, _ => by simp [appendChild, childNamed]
  | .cons m d rest, n, c, h => by
    simp only [childNamed] at h
    by_cases hm : m = n
    · rw [if_pos hm] at h
      exact absurd h (by simp)
    · rw [if_neg hm] at h
      simp only [appendChild, childNamed, if_neg hm]
      exact childNamed_appendChild rest n c h


/-- C6: `AddFrame` fails exactly when the parent path does not parse as an
absolute path to an existing frame, the name is not a valid segment, or
the name is a duplicate; every failure is one of `InvalidPath`,
`UnknownFrame`, `DuplicateFrame` (the pure model leaves the graph
untouched by construction); on success the new frame sits under the parent
with the given local pose. -/
theorem c6_addFrame {G : Type} (g : Frame G) (pp n : String) (q : G) :
    (∀ e, addFrame g pp n q = .error e →
      ¬ addOk g pp n ∧
      (e = .InvalidPath ∨ e = .UnknownFrame ∨ e = .DuplicateFrame)) ∧
    (∀ g', addFrame g pp n q = .ok g' →
      addOk g pp n ∧
      ∃ p, parsePath pp = some p ∧
        findFrame g' (p.pathElems ++ [n]) = some (.mk q .nil)) ∧
    (addOk g pp n → ∃ g', addFrame g pp n q = .ok g') := by
  unfold addFrame addOk
  cases hpt : parsePath pp with
  | none =>
    refine ⟨fun e he => ⟨?_, ?_⟩, fun g' hg => ?_, fun hok => ?_⟩
    · rintro ⟨p2, parent2, hp2, -⟩
      cases hp2
    · exact Or.inl (by cases he; rfl)
    · cases hg
    · rcases hok with ⟨p2, parent2, hp2, -⟩
      cases hp2
  | some p =>
    dsimp only
    by_cases habs : graphAbsolute p = true
    · rw [if_pos habs]
      cases hfp : findFrame g p.pathElems with
      | none =>
        refine ⟨fun e he => ⟨?_, ?_⟩, fun g' hg => ?_, fun hok => ?_⟩
        · rintro ⟨p2, parent2, hp2, -, hfind, -⟩
          cases hp2
          rw [hfp] at hfind
          cases hfind
        · exact Or.inr (Or.inl (by cases he; rfl))
        · cases hg
        · rcases hok with ⟨p2, parent2, hp2, -, hfind, -⟩
          cases hp2
          rw [hfp] at hfind
          cases hfind
      | some parent =>
        dsimp only
        by_cases hvn : validFrameName n = true
        · rw [if_pos hvn]
          by_cases hdup : (childNamed parent.children n).isSome = true
          · rw [if_pos hdup]
            refine ⟨fun e he => ⟨?_, ?_⟩, fun g' hg => ?_, fun hok => ?_⟩
            · rintro ⟨p2, parent2, hp2, -, hfind, -, hnone⟩
              cases hp2
              rw [hfp] at hfind
              cases hfind
              rw [hnone] at hdup
              exact absurd hdup (by simp)
            · exact Or.inr (Or.inr (by cases he; rfl))
            · cases hg
            · rcases hok with ⟨p2, parent2, hp2, -, hfind, -, hnone⟩
              cases hp2
              rw [hfp] at hfind
              cases hfind
              rw [hnone] at hdup
              exact absurd hdup (by simp)
          · rw [if_neg hdup]
            have hnone : childNamed parent.children n = none :=
              Option.not_isSome_iff_eq_none.mp hdup
            refine ⟨fun e he => ?_, fun g' hg => ?_, fun hok => ?_⟩
            · cases he
            · constructor
              · exact ⟨p, parent, rfl, habs, hfp, hvn, hnone⟩
              · refine ⟨p, rfl, ?_⟩
                have hg2 :
                    updateAt g p.pathElems
                      (fun f => Frame.mk f.pose
                        (appendChild f.children n (.mk q .nil))) = g' := by
                  simpa using hg
                subst hg2
                rw [findFrame_append, findFrame_updateAt, hfp]
                rw [show Option.map (fun f : Frame G => Frame.mk f.pose
                    (appendChild f.children n (.mk q .nil))) (some parent) =
                  some (Frame.mk parent.pose
                    (appendChild parent.children n (.mk q .nil))) from rfl]
                rw [Option.some_bind, findFrame_singleton]
                rw [show (Frame.mk parent.pose
                    (appendChild parent.children n (.mk q .nil))).children =
                  appendChild parent.children n (.mk q .nil) from rfl]
                rw [childNamed_appendChild parent.children n (.mk q .nil) hnone]
            · exact ⟨_, rfl⟩
        · rw [if_neg hvn]
          refine ⟨fun e he => ⟨?_, ?_⟩, fun g' hg => ?_, fun hok => ?_⟩
          · rintro ⟨p2, parent2, hp2, -, -, hv, -⟩
            cases hp2
            exact hvn hv
          · exact Or.inl (by cases he; rfl)
          · cases hg
          · rcases hok with ⟨p2, parent2, hp2, -, -, hv, -⟩
            cases hp2
            exact (hvn hv).elim
    · rw [if_neg habs]
      refine ⟨fun e he => ⟨?_, ?_⟩, fun g' hg => ?_, fun hok => ?_⟩
      · rintro ⟨p2, parent2, hp2, hab, -⟩
        cases hp2
        exact habs hab
      · exact Or.inl (by cases he; rfl)
      · cases hg
      · rcases hok with ⟨p2, parent2, hp2, hab, -⟩
        cases hp2
        exact (habs hab).elim


/-- Witness for C6 at concrete inputs: adding `b` under the root of
`wGraphA` succeeds and the new frame carries the given pose; adding a
duplicate `a` fails; adding under a non-absolute parent fails. -/
theorem c6_addFrame_witness :
    (∃ g', addFrame wGraphA "/" "b" (Multiplicative.ofAdd (7 : ℤ)) = .ok g') ∧
    ¬ addOk wGraphA "/" "a" ∧
    ¬ addOk wGraphA "root" "x" := by
  refine ⟨(c6_addFrame wGraphA "/" "b" (Multiplicative.ofAdd (7 : ℤ))).2.2 ?_, ?_, ?_⟩
  · exact ⟨⟨"/", []⟩, wGraphA, by decide, by decide, rfl, by decide, rfl⟩
  · exact ((c6_addFrame wGraphA "/" "a" (Multiplicative.ofAdd (7 : ℤ))).1
      FrameError.DuplicateFrame (by rfl)).1
  · exact ((c6_addFrame wGraphA "root" "x" (Multiplicative.ofAdd (7 : ℤ))).1
      FrameError.InvalidPath (by rfl)).1


/-! ### DeleteFrame: the whole subtree becomes unreachable -/
theorem childNamed_removeChild {G : Type} :
    ∀ (cs : Children G) (n : String), childNamed (removeChild cs n) n = none
  | .nil, n => rfl
  | .cons m d rest, n => by
    simp only [removeChild]
    by_cases hm : m = n
    · rw [if_pos hm]
      exact childNamed_removeChild rest n
    · rw [if_neg hm]
      simp only [childNamed, if_neg hm]
      exact childNamed_removeChild rest n


/-- After removing the subtree at a non-empty location, no location under
it (the location itself included) resolves. -/
theorem deleteAt_kills {G : Type} :
    ∀ (loc : List String) (g : Frame G) (rest : List String), loc ≠ [] →
    findFrame (deleteAt g loc) (loc ++ rest) = none
  | [], _, _, h => absurd rfl h
  | [n], g, rest, _ => by
    cases g with
    | mk p cs =>
      simp only [deleteAt, List.cons_append, List.nil_append, findFrame,
        Frame.children, childNamed_removeChild]
  | n :: m :: tl, g, rest, _ => by
    cases g with
    | mk p cs =>
      simp only [deleteAt, List.cons_append, findFrame, Frame.children,
        childNamed_mapChild_self]
      cases childNamed cs n with
      | none => rfl
      | some c =>
        simp only [Option.map_some']
        exact deleteAt_kills (m :: tl) c rest (by simp)


/-- C7: after a successful `DeleteFrame(p)`, every location having `p`'s
elements as a prefix no longer resolves, a weak handle into the subtree
fails `LocalPose` with `UnknownFrame`, and an `AddFrame` whose (absolute,
parsed) parent path leads into the deleted subtree fails with
`UnknownFrame` instead of recreating it. -/
theorem c7_deleteFrame {G : Type} (g g' : Frame G) (pth : String)
    (hdel : deleteFrame g pth = .ok g') :
    ∃ pe, parsePath pth = some pe ∧ pe.pathElems ≠ [] ∧
      (∀ loc, pe.pathElems <+: loc →
        findFrame g' loc = none ∧ localPoseAt g' loc = .error .UnknownFrame) ∧
      (∀ (pp n : String) (q : G) (p2 : ParsedPath), parsePath pp = some p2 →
        graphAbsolute p2 = true → pe.pathElems <+: p2.pathElems →
        addFrame g' pp n q = .error .UnknownFrame) := by
  unfold deleteFrame at hdel
  cases hpt : parsePath pth with
  | none => rw [hpt] at hdel; cases hdel
  | some pe =>
    rw [hpt] at hdel
    dsimp only at hdel
    by_cases habs : graphAbsolute pe = true
    · rw [if_pos habs] at hdel
      cases helems : pe.pathElems with
      | nil => rw [helems] at hdel; cases hdel
      | cons a as =>
        rw [helems] at hdel
        cases hfp : findFrame g (a :: as) with
        | none => rw [hfp] at hdel; cases hdel
        | some f0 =>
          rw [hfp] at hdel
          have hg2 : deleteAt g (a :: as) = g' := by simpa using hdel
          subst hg2
          refine ⟨pe, rfl, by rw [helems]; simp, ?_, ?_⟩
          · intro loc hpre
            rw [helems] at hpre
            obtain ⟨t, rfl⟩ := hpre
            have hnone := deleteAt_kills (a :: as) g t (by simp)
            refine ⟨hnone, ?_⟩
            unfold localPoseAt
            rw [hnone]
          · intro pp n q p2 hp2 habs2 hpre
            rw [helems] at hpre
            obtain ⟨t, ht⟩ := hpre
            unfold addFrame
            rw [hp2]
            dsimp only
            rw [if_pos habs2, ← ht]
            rw [deleteAt_kills (a :: as) g t (by simp)]
    · rw [if_neg habs] at hdel
      cases hdel


/-- Witness for C7: after deleting `/a` from `wGraphDeep`, `LocalPose` on
the old handle to `a/aa` fails, and `AddFrame("/a/aa", "aaa", …)` fails
with `UnknownFrame`. -/
theorem c7_deleteFrame_witness :
    localPoseAt (Frame.mk 1 Children.nil : Frame (Multiplicative ℤ)) ["a", "aa"]
      = .error .UnknownFrame ∧
    addFrame (Frame.mk 1 Children.nil : Frame (Multiplicative ℤ)) "/a/aa" "aaa"
      (Multiplicative.ofAdd 7) = .error .UnknownFrame := by
  obtain ⟨pe, hpe, hne, hres, hadd⟩ :=
    c7_deleteFrame wGraphDeep (Frame.mk 1 Children.nil) "/a" (by rfl)
  have hpe2 : pe = ⟨"/a", ["a"]⟩ := by
    have hx : (some pe : Option ParsedPath) = some ⟨"/a", ["a"]⟩ := by
      rw [← hpe]
      decide
    injection hx
  subst hpe2
  refine ⟨(hres ["a", "aa"] ⟨["aa"], rfl⟩).2, ?_⟩
  exact hadd "/a/aa" "aaa" (Multiplicative.ofAdd 7) ⟨"/a/aa", ["a", "aa"]⟩
    (by decide) (by decide) ⟨["aa"], rfl⟩


/-- `CreateRelativePose` only looks at the tree structure, which pose-only
updates preserve. -/
theorem createRelativePose_updateAt {G : Type} (u : Frame G → Frame G)
    (hu : ∀ f, (u f).children = f.children) (g : Frame G) (loc : List String)
    (t r : String) :
    createRelativePose (updateAt g loc u) t r = createRelativePose g t r := by
  unfold createRelativePose
  cases parsePath t with
  | none => rfl
  | some pt =>
    cases parsePath r with
    | none => rfl
    | some pr =>
      dsimp only
      rw [resolveSegs_updateAt u hu g loc pt.pathElems []]
      cases resolveSegs g [] pt.pathElems with
      | none => rfl
      | some tl =>
        dsimp only
        rw [resolveSegs_updateAt u hu g loc pr.pathElems
          (if pr.path.toList.head? == some '/' then [] else tl)]


/-- The chains a handle stores are unchanged by any sequence of
`SetLocalPose` mutations. -/
theorem createRelativePose_setReach {G : Type} {g g' : Frame G}
    (hreach : SetReach g g') (t r : String) :
    createRelativePose g' t r = createRelativePose g t r := by
  induction hreach with
  | refl => rfl
  | step hr hset ih =>
    rename_i g1 g2 loc q
    cases loc with
    | nil => simp [setPoseAt] at hset
    | cons a as =>
      simp only [setPoseAt] at hset
      cases hf : findFrame g1 (a :: as) with
      | none => rw [hf] at hset; cases hset
      | some c =>
        rw [hf] at hset
        have hg2 : updateAt g1 (a :: as) (fun f => Frame.mk q f.children) = g2 := by
          simpa using hset
        subst hg2
        rw [createRelativePose_updateAt (fun f => Frame.mk q f.children)
          (fun f => rfl) g1 (a :: as) t r, ih]


/-- C8: a handle built by `CreateRelativePose` stays in agreement with the
directly computed `Pose` after any sequence of `SetLocalPose` mutations:
evaluating the handle against the mutated graph gives exactly what a fresh
query gives — it reflects current local poses, not values cached at
creation time. -/
theorem c8_handle_current {G : Type} [Group G] (g g' : Frame G) (t r : String)
    (h : RelativePose) (hreach : SetReach g g')
    (hc : createRelativePose g t r = .ok h) :
    poseQ g' t r = evalRel g' h := by
  unfold poseQ
  rw [createRelativePose_setReach hreach t r, hc]


/-- Witness for C8: in `wGraphA`, the handle for `("/a", "/")` is the
single-link chain `[["a"]]`; after `SetLocalPose` turns the graph into
`wGraphA5`, evaluating that old handle agrees with a fresh query. -/
theorem c8_handle_current_witness :
    poseQ wGraphA5 "/a" "/" =
      evalRel wGraphA5 (⟨[["a"]], []⟩ : RelativePose) :=
  c8_handle_current wGraphA wGraphA5 "/a" "/" ⟨[["a"]], []⟩
    (SetReach.step SetReach.refl
      (show setPoseAt wGraphA ["a"] (Multiplicative.ofAdd 5) = .ok wGraphA5
        from rfl))
    (by rfl)


mutual
/-- Every entry the traversal lists under a well-formed frame corresponds
to a frame that resolves at that location with that pose. -/
theorem dfsF_sound {G : Type} : ∀ (f : Frame G) (loc0 l : List String) (q : G),
    wellFormedF f = true → (l, q) ∈ dfsF loc0 f →
    ∃ rest cs2, l = loc0 ++ rest ∧ findFrame f rest = some (.mk q cs2)
  | .mk p cs, loc0, l, q => by
    intro hwf hmem
    rw [dfsF] at hmem
    rcases List.mem_cons.mp hmem with heq | hmem2
    · injection heq with h1 h2
      subst h1
      subst h2
      exact ⟨[], cs, by rw [List.append_nil], rfl⟩
    · have hwfc : wellFormedC cs = true := by
        simpa [wellFormedF] using hwf
      obtain ⟨m, r2, cs2, hl, hfind⟩ := dfsC_sound cs loc0 l q hwfc hmem2
      exact ⟨m :: r2, cs2, hl, hfind p⟩
/-- Child-map version of `dfsF_sound`; the wrapper pose is irrelevant. -/
theorem dfsC_sound {G : Type} : ∀ (cs : Children G) (loc0 l : List String) (q : G),
    wellFormedC cs = true → (l, q) ∈ dfsC loc0 cs →
    ∃ m r2 cs2, l = loc0 ++ m :: r2 ∧
      ∀ p0 : G, findFrame (.mk p0 cs) (m :: r2) = some (.mk q cs2)
  | .nil, loc0, l, q => by
    intro hwf hmem
    rw [dfsC] at hmem
    exact absurd hmem (List.not_mem_nil _)
  | .cons n c rest, loc0, l, q => by
    intro hwf hmem
    have hwf2 := hwf
    simp only [wellFormedC, Bool.and_eq_true, Bool.not_eq_true'] at hwf2
    obtain ⟨⟨h1, h2⟩, h3⟩ := hwf2
    have h1n : childNamed rest n = none := by
      cases hcn : childNamed rest n with
      | none => rfl
      | some x => rw [hcn] at h1; exact absurd h1 (by simp)
    rw [dfsC] at hmem
    rcases List.mem_append.mp hmem with hl | hr
    · obtain ⟨r', cs2, hleq, hfind⟩ := dfsF_sound c (loc0 ++ [n]) l q h2 hl
      refine ⟨n, r', cs2, by rw [hleq, List.append_assoc]; rfl, fun p0 => ?_⟩
      simp only [findFrame, Frame.children, childNamed, if_pos rfl]
      exact hfind
    · obtain ⟨m, r2, cs2, hleq, hfind⟩ := dfsC_sound rest loc0 l q h3 hr
      have hmn : ¬ (n = m) := by
        intro he
        subst he
        have hx := hfind c.pose
        simp only [findFrame, Frame.children, h1n] at hx
        exact Option.noConfusion hx
      refine ⟨m, r2, cs2, hleq, fun p0 => ?_⟩
      have hy := hfind p0
      simp only [findFrame, Frame.children, childNamed, if_neg hmn] at hy ⊢
      exact hy
end

/-- The traversal of a child map contains the traversal of the child found
by name. -/
theorem dfsC_sub {G : Type} :
    ∀ (cs : Children G) (n : String) (c : Frame G) (loc0 : List String),
    childNamed cs n = some c →
    ∀ e, e ∈ dfsF (loc0 ++ [n]) c → e ∈ dfsC loc0 cs
  | .nil, n, c, loc0, hc => by cases hc
  | .cons m d rest, n, c, loc0, hc => by
    intro e he
    rw [dfsC]
    simp only [childNamed] at hc
    by_cases hm : m = n
    · rw [if_pos hm] at hc
      cases hc
      subst hm
      exact List.mem_append_left _ he
    · rw [if_neg hm] at hc
      exact List.mem_append_right _ (dfsC_sub rest n c loc0 hc e he)


/-- Every frame that resolves appears in the traversal, at its location,
with its local pose. -/
theorem dfs_complete {G : Type} :
    ∀ (rest : List String) (f : Frame G) (loc0 : List String) (f' : Frame G),
    findFrame f rest = some f' → (loc0 ++ rest, f'.pose) ∈ dfsF loc0 f
  | [], f, loc0, f' => by
    intro hf
    rw [show findFrame f [] = some f from rfl] at hf
    cases hf
    cases f with
    | mk p cs =>
      rw [dfsF, List.append_nil]
      exact List.mem_cons_self _ _
  | n :: r, f, loc0, f' => by
    intro hf
    simp only [findFrame] at hf
    cases hc : childNamed f.children n with
    | none => rw [hc] at hf; cases hf
    | some c =>
      rw [hc] at hf
      have hmem := dfs_complete r c (loc0 ++ [n]) f' hf
      rw [List.append_assoc] at hmem
      cases f with
      | mk p cs =>
        rw [dfsF]
        refine List.mem_cons_of_mem _ ?_
        exact dfsC_sub cs n c loc0 (by simpa [Frame.children] using hc) _
          (by simpa using hmem)


mutual
/-- Every location the traversal lists is the starting location or extends
it through a child name. -/
theorem dfsF_shape {G : Type} : ∀ (f : Frame G) (loc0 l : List String) (q : G),
    (l, q) ∈ dfsF loc0 f →
    l = loc0 ∨ ∃ m r, m ∈ childNames f.children ∧ l = loc0 ++ m :: r
  | .mk p cs, loc0, l, q => by
    intro hmem
    rw [dfsF] at hmem
    rcases List.mem_cons.mp hmem with heq | hmem2
    · injection heq with h1 h2
      exact Or.inl h1
    · obtain ⟨m, r, hmn, hl⟩ := dfsC_shape cs loc0 l q hmem2
      exact Or.inr ⟨m, r, hmn, hl⟩
theorem dfsC_shape {G : Type} : ∀ (cs : Children G) (loc0 l : List String) (q : G),
    (l, q) ∈ dfsC loc0 cs →
    ∃ m r, m ∈ childNames cs ∧ l = loc0 ++ m :: r
  | .nil, loc0, l, q => by
    intro hmem
    rw [dfsC] at hmem
    exact absurd hmem (List.not_mem_nil _)
  | .cons n c rest, loc0, l, q => by
    intro hmem
    rw [dfsC] at hmem
    rcases List.mem_append.mp hmem with hl | hr
    · rcases dfsF_shape c (loc0 ++ [n]) l q hl with heq | ⟨m, r, hmn, hleq⟩
      · exact ⟨n, [], by simp [childNames, Children.toList], heq⟩
      · exact ⟨n, m :: r, by simp [childNames, Children.toList],
          by rw [hleq, List.append_assoc]; rfl⟩
    · obtain ⟨m, r, hmn, hleq⟩ := dfsC_shape rest loc0 l q hr
      refine ⟨m, r, ?_, hleq⟩
      simp only [childNames, Children.toList, List.map_cons, List.mem_cons]
      right
      simpa [childNames, List.mem_map] using hmn
end

/-- A name missing from the child map is not among the child names. -/
theorem childNamed_none_not_mem {G : Type} :
    ∀ (cs : Children G) (n : String), childNamed cs n = none →
    n ∉ childNames cs
  | .nil, n, _ => by simp [childNames, Children.toList]
  | .cons m c rest, n, h => by
    simp only [childNamed] at h
    by_cases hm : m = n
    · rw [if_pos hm] at h
      cases h
    · rw [if_neg hm] at h
      simp only [childNames, Children.toList, List.map_cons, List.mem_cons]
      rintro (heq | hmem)
      · exact hm heq.symm
      · exact childNamed_none_not_mem rest n h hmem


theorem append_cons_cancel {α : Type} (a : List α) (x y : α) (r s : List α)
    (h : a ++ x :: r = a ++ y :: s) : x = y := by
  have h2 := congrArg (List.drop a.length) h
  rw [List.drop_left, List.drop_left] at h2
  injection h2 with h3 h4


mutual
/-- Under the sibling-uniqueness invariant, the traversal lists every
location at most once. -/
theorem dfsF_nodup {G : Type} : ∀ (f : Frame G) (loc0 : List String),
    wellFormedF f = true → ((dfsF loc0 f).map Prod.fst).Nodup
  | .mk p cs, loc0 => by
    intro hwf
    rw [dfsF]
    rw [List.map_cons]
    refine List.nodup_cons.mpr ⟨?_, ?_⟩
    · intro hmem
      obtain ⟨⟨l, q⟩, hlq, hfst⟩ := List.mem_map.mp hmem
      obtain ⟨m, r, -, hleq⟩ := dfsC_shape cs loc0 l q hlq
      dsimp only at hfst
      rw [hfst] at hleq
      have := congrArg List.length hleq
      simp at this
    · exact dfsC_nodup cs loc0 (by simpa [wellFormedF] using hwf)
theorem dfsC_nodup {G : Type} : ∀ (cs : Children G) (loc0 : List String),
    wellFormedC cs = true → ((dfsC loc0 cs).map Prod.fst).Nodup
  | .nil, loc0 => by
    intro hwf
    simp [dfsC]
  | .cons n c rest, loc0 => by
    intro hwf
    have hwf2 := hwf
    simp only [wellFormedC, Bool.and_eq_true, Bool.not_eq_true'] at hwf2
    obtain ⟨⟨h1, h2⟩, h3⟩ := hwf2
    have h1n : childNamed rest n = none := by
      cases hcn : childNamed rest n with
      | none => rfl
      | some x => rw [hcn] at h1; exact absurd h1 (by simp)
    rw [dfsC, List.map_append]
    refine List.Nodup.append (dfsF_nodup c (loc0 ++ [n]) h2)
      (dfsC_nodup rest loc0 h3) ?_
    intro l hleft hright
    obtain ⟨⟨l1, q1⟩, hlq1, hfst1⟩ := List.mem_map.mp hleft
    obtain ⟨⟨l2, q2⟩, hlq2, hfst2⟩ := List.mem_map.mp hright
    obtain ⟨m2, r2, hm2, hleq2⟩ := dfsC_shape rest loc0 l2 q2 hlq2
    have hl1 : ∃ r1, l1 = loc0 ++ n :: r1 := by
      rcases dfsF_shape c (loc0 ++ [n]) l1 q1 hlq1 with heq | ⟨m, r, -, hleq⟩
      · exact ⟨[], heq⟩
      · exact ⟨m :: r, by rw [hleq, List.append_assoc]; rfl⟩
    obtain ⟨r1, hleq1⟩ := hl1
    dsimp only at hfst1 hfst2
    rw [hfst1] at hleq1
    rw [hfst2] at hleq2
    rw [hleq1] at hleq2
    have := append_cons_cancel loc0 n m2 r1 r2 hleq2
    subst this
    exact childNamed_none_not_mem rest n h1n hm2
end

/-- The traversal of a child map is the insertion-order concatenation of
the traversals of the children, i.e. the printer visits children in the
order `children()` exposes. -/
theorem dfsC_toList_bind {G : Type} :
    ∀ (cs : Children G) (loc : List String),
    dfsC loc cs = cs.toList.flatMap (fun e => dfsF (loc ++ [e.1]) e.2)
  | .nil, loc => rfl
  | .cons n c rest, loc => by
    rw [dfsC, Children.toList, List.flatMap_cons, dfsC_toList_bind rest loc]


theorem stringAppend_empty (a : String) : a ++ "" = a := by
  cases a with
  | mk la =>
    show String.mk (la ++ []) = String.mk la
    rw [List.append_nil]


theorem stringAppend_assoc (a b c : String) : a ++ b ++ c = a ++ (b ++ c) := by
  cases a with
  | mk la =>
    cases b with
    | mk lb =>
      cases c with
      | mk lc =>
        show String.mk (la ++ lb ++ lc) = String.mk (la ++ (lb ++ lc))
        rw [List.append_assoc]


/-- A right fold of newline-terminated lines over the empty string ends
with a newline. -/
theorem foldr_lines_newline :
    ∀ (L : List String), L ≠ [] → (∀ x ∈ L, ∃ s, x = s ++ "\n") →
    ∃ s, L.foldr (fun line acc => line ++ acc) "" = s ++ "\n"
  | [], h, _ => absurd rfl h
  | [x], _, hx => by
    obtain ⟨s, hs⟩ := hx x (by simp)
    exact ⟨s, by rw [List.foldr_cons, List.foldr_nil, stringAppend_empty, hs]⟩
  | x :: y :: tl, _, hx => by
    obtain ⟨s, hs⟩ := foldr_lines_newline (y :: tl) (by simp)
      (fun z hz => hx z (List.mem_cons_of_mem _ hz))
    refine ⟨x ++ s, ?_⟩
    rw [List.foldr_cons, hs, ← stringAppend_assoc]


/-- C9: the debug printing is the depth-first insertion-order traversal
rendered one line per frame as `<absolute-path> [<pose>]` with a trailing
newline after every line including the last; the root is rendered `/`;
under the sibling-uniqueness invariant the traversal lists exactly the
frames that resolve, once each, with their local poses; and children are
visited in the insertion order `children()` exposes. -/
theorem c9_print {G : Type} (render : G → String) (g : Frame G) :
    printGraph render g =
      ((dfsF [] g).map
        (fun e => pathString e.1 ++ " [" ++ render e.2 ++ "]" ++ "\n")).foldr
        (fun line acc => line ++ acc) "" ∧
    pathString [] = "/" ∧
    (∃ s, printGraph render g = s ++ "\n") ∧
    (wellFormedF g = true → ∀ l q, (l, q) ∈ dfsF [] g →
      ∃ cs2, findFrame g l = some (.mk q cs2)) ∧
    (∀ l f', findFrame g l = some f' → (l, f'.pose) ∈ dfsF [] g) ∧
    (wellFormedF g = true → ((dfsF [] g).map Prod.fst).Nodup) ∧
    (∀ (loc : List String) (cs : Children G),
      dfsC loc cs = cs.toList.flatMap (fun e => dfsF (loc ++ [e.1]) e.2)) := by
  refine ⟨rfl, rfl, ?_, ?_, ?_, ?_, ?_⟩
  · show ∃ s, ((dfsF [] g).map (printLine render)).foldr
      (fun line acc => line ++ acc) "" = s ++ "\n"
    apply foldr_lines_newline
    · cases g with
      | mk p cs => simp [dfsF]
    · intro x hx
      obtain ⟨e, -, rfl⟩ := List.mem_map.mp hx
      exact ⟨pathString e.1 ++ " [" ++ render e.2 ++ "]", rfl⟩
  · intro hwf l q hmem
    obtain ⟨rest, cs2, hl, hfind⟩ := dfsF_sound g [] l q hwf hmem
    rw [List.nil_append] at hl
    subst hl
    exact ⟨cs2, hfind⟩
  · intro l f' hf
    have hc := dfs_complete l g [] f' hf
    rwa [List.nil_append] at hc
  · intro hwf
    exact dfsF_nodup g [] hwf
  · exact fun loc cs => dfsC_toList_bind cs loc


/-- Witness for C9 at a concrete graph: the printed text of `wGraphDeep`
(all poses rendered `"0"`), its trailing newline, and the exactly-once
property of its traversal. -/
theorem c9_print_witness :
    printGraph (fun _ : Multiplicative ℤ => "0") wGraphDeep
      = "/ [0]\n/a [0]\n/a/aa [0]\n" ∧
    (∃ s, printGraph (fun _ : Multiplicative ℤ => "0") wGraphDeep = s ++ "\n") ∧
    ((dfsF [] wGraphDeep).map Prod.fst).Nodup := by
  have h := c9_print (fun _ : Multiplicative ℤ => "0") wGraphDeep
  exact ⟨by rfl, h.2.2.1, h.2.2.2.2.2.1 (by rfl)⟩


end GzMath
